import Mathlib

/-!
Verification of the shellpad in-memory editing engine and notebook store
(`src/shellpad/main.py`), shallowly embedded over `List Char` text.

Conventions of the embedding:
* Python `str` values become `List Char`; a text buffer becomes
  `List (List Char)` plus a cursor `(cy, cx) : Nat × Nat`.
* Python list operations are modelled exactly: `list.insert(i, x)` is
  `pyInsert` (which clamps `i` to the length, as Python does),
  `list.pop(i)` is `List.eraseIdx`, `l[i] = v` is `List.set`.
  Where Python would raise `IndexError` on an out-of-range read the model
  uses `List.getD` with an arbitrary default; all verified statements are
  about states where the index is in range.
* `str.splitlines` is `pySplitlines` (covering the `\n`, `\r`, `\r\n` and
  the other one-character line boundaries), `str.split('\n')` is `splitNL`,
  `'\n'.join` is `joinNL`, `str.rstrip()` is `rstrip` (Python whitespace,
  ASCII plus NEL and NBSP), `str.strip()` is `pyStrip`.
-/

namespace Shellpad

/-- Whitespace characters for Python's `str.strip`/`str.rstrip` and the
regex class `\s` (ASCII whitespace plus the C1 NEL and NBSP characters;
other Unicode space characters do not occur in the texts modelled here). -/
def isPySpace (c : Char) : Bool :=
  c = ' ' || c = '\t' || c = '\n' || c = '\r' || c = '\x0b' || c = '\x0c' ||
  c = '\x1c' || c = '\x1d' || c = '\x1e' || c = '\x1f' || c = '\x85' || c = '\xa0'

/-- Line-boundary characters recognized by Python's `str.splitlines`
(the Unicode LS/PS separators are omitted: they do not occur in the
ASCII/Latin-1 texts modelled here). -/
def isLineBoundary (c : Char) : Bool :=
  c = '\n' || c = '\r' || c = '\x0b' || c = '\x0c' ||
  c = '\x1c' || c = '\x1d' || c = '\x1e' || c = '\x85'

/-- Python `str.rstrip()`: remove trailing whitespace. -/
def rstrip : List Char → List Char
  | [] => []
  | c :: t =>
    let r := rstrip t
    if r.isEmpty && isPySpace c then [] else c :: r

/-- Python `str.strip()`: remove leading and trailing whitespace. -/
def pyStrip (s : List Char) : List Char :=
  rstrip (s.dropWhile isPySpace)

/-- Python `str.split('\n')`. -/
def splitNL : List Char → List (List Char)
  | [] => [[]]
  | c :: t =>
    if c = '\n' then [] :: splitNL t
    else
      let r := splitNL t
      (c :: r.headD []) :: r.tail

/-- Python `str.splitlines()`: split at line boundaries, treating `\r\n`
as a single boundary, with no entry for a trailing boundary. -/
def pySplitlines : List Char → List (List Char)
  | [] => []
  | [c] => if isLineBoundary c then [[]] else [[c]]
  | c :: d :: t =>
    if c = '\r' ∧ d = '\n' then [] :: pySplitlines t
    else if isLineBoundary c then
      let r := pySplitlines (d :: t)
      [] :: r
    else
      let r := pySplitlines (d :: t)
      (c :: r.headD []) :: r.tail

/-- Python `'\n'.join`. -/
def joinNL : List (List Char) → List Char
  | [] => []
  | l :: ls => l ++ (if ls.isEmpty then [] else '\n' :: joinNL ls)

/-- A note: `Note(title, body)` from `main.py`. -/
structure Note where
  title : List Char
  body : List Char
deriving DecidableEq, Repr

/-- Matching a line against `Notebook.H1 = re.compile(r'^#\s+(.*)$')`:
the line must start with `#` followed by at least one whitespace
character; the greedy `\s+` consumes the maximal whitespace run and the
returned group is the remainder of the line. -/
def h1Match : List Char → Option (List Char)
  | [] => none
  | c :: rest =>
    if c = '#' then
      if (rest.takeWhile isPySpace).isEmpty then none
      else some (rest.dropWhile isPySpace)
    else none

/-- The line list built by `Notebook.save`: for each note a heading line
`"# " + title`, then (if the body is truthy) the right-stripped body as a
single element, then an empty separator line. -/
def saveOut : List Note → List (List Char)
  | [] => []
  | n :: ns =>
    ('#' :: ' ' :: n.title) ::
      ((if n.body.isEmpty then [] else [rstrip n.body]) ++ ([] :: saveOut ns))

/-- The full text written by `Notebook.save`:
`'\n'.join(out).rstrip() + '\n'`. -/
def saveText (notes : List Note) : List Char :=
  rstrip (joinNL (saveOut notes)) ++ ['\n']

/-- The line-scanning loop of `Notebook.load`: `cur` is the open note's
title (Python `cur_t`, `None` when no note is open), `cls` the
accumulated body lines (`cur_lines`); on a heading line the open note is
flushed with body `'\n'.join(cur_lines).rstrip()` and a new note opens
with title `group(1).strip()`; other lines are appended to `cls` when a
note is open and discarded otherwise; at the end the open note is flushed. -/
def loadLoop : List (List Char) → Option (List Char) → List (List Char) → List Note
  | [], none, _ => []
  | [], some t, cls => [⟨t, rstrip (joinNL cls)⟩]
  | ln :: rest, cur, cls =>
    match h1Match ln with
    | some g =>
      match cur with
      | none => loadLoop rest (some (pyStrip g)) []
      | some t => ⟨t, rstrip (joinNL cls)⟩ :: loadLoop rest (some (pyStrip g)) []
    | none =>
      match cur with
      | none => loadLoop rest none cls
      | some t => loadLoop rest (some t) (cls ++ [ln])

/-- `Notebook.load` applied to the text of an existing store file. -/
def loadNotes (text : List Char) : List Note :=
  loadLoop (pySplitlines text) none []

/-- Hypotheses under which a note survives the save/load round trip: a
non-empty title with no surrounding whitespace and no line-boundary
characters, a body with no trailing whitespace whose only line-boundary
character is `'\n'`, and (as the claim already requires) no body line
matching the heading marker pattern. -/
def CleanNote (n : Note) : Prop :=
  n.title ≠ [] ∧
  n.title.dropWhile isPySpace = n.title ∧
  rstrip n.title = n.title ∧
  (∀ c ∈ n.title, isLineBoundary c = false) ∧
  rstrip n.body = n.body ∧
  (∀ c ∈ n.body, isLineBoundary c = true → c = '\n') ∧
  (∀ l ∈ splitNL n.body, h1Match l = none)

instance : DecidablePred CleanNote := fun n => by
  unfold CleanNote
  infer_instance

/-- The text block a clean note contributes to the saved file (heading
line, then the body on its own lines when non-empty), without the
trailing separator. -/
def noteBlock (n : Note) : List Char :=
  ('#' :: ' ' :: n.title) ++ (if n.body.isEmpty then [] else '\n' :: n.body)

/-- The saved text of a clean note list, before the final `"\n"`:
blocks joined by blank separator lines. -/
def savedRec : List Note → List Char
  | [] => []
  | n :: ns =>
    noteBlock n ++ (if ns.isEmpty then [] else '\n' :: '\n' :: savedRec ns)

/-- The line list of the saved file of a clean note list. -/
def lineList : List Note → List (List Char)
  | [] => []
  | n :: ns =>
    ('#' :: ' ' :: n.title) ::
      ((if n.body.isEmpty then [] else splitNL n.body) ++
        (if ns.isEmpty then [] else [] :: lineList ns))

/-- An undo snapshot `(list(self.lines), self.cy, self.cx)`. -/
abbrev Snap : Type := List (List Char) × Nat × Nat

/-- The mutable state of `Editor`: the line buffer, the cursor, and the
two history stacks.  The fields `stdscr`, `note`, `autosave_cb`, `colors`,
`realtime`, `view_top` and `view_left` are omitted: they never influence
the buffer, cursor or history (`_maybe_realtime_save` only invokes the
autosave callback, which does not touch the editor's state). -/
structure Editor where
  lines : List (List Char)
  cy : Nat
  cx : Nat
  undo : List Snap
  redo : List Snap
deriving DecidableEq, Repr

/-- The current `(lines, cy, cx)` triple of an editor. -/
def stateOf (e : Editor) : Snap := (e.lines, e.cy, e.cx)

/-- Python `list.insert(i, x)`: insert before position `i`, clamping `i`
into range (Python clamps, it never raises here). -/
def pyInsert (l : List α) (i : Nat) (a : α) : List α :=
  l.take i ++ a :: l.drop i

/-- The stack update of `Editor._push_undo`: append the snapshot, then
`pop(0)` when the length exceeds 300. -/
def pushCap (u : List Snap) (s : Snap) : List Snap :=
  let u' := u ++ [s]
  if 300 < u'.length then u'.tail else u'

/-- `Editor._push_undo`: push the current state onto the undo stack
(capped at 300 entries, oldest dropped) and clear the redo stack. -/
def push_undo (e : Editor) : Editor :=
  { e with undo := pushCap e.undo (stateOf e), redo := [] }

/-- `Editor._clamp_cursor`. -/
def clamp_cursor (e : Editor) : Editor :=
  let ls := if e.lines.isEmpty then [[]] else e.lines
  let y := min e.cy (ls.length - 1)
  { e with lines := ls, cy := y, cx := min e.cx (ls.getD y []).length }

/-- `Editor._do_undo`: when more than the initial entry is present, pop
the top snapshot onto the redo stack and restore the new top, then
re-clamp the cursor. -/
def do_undo (e : Editor) : Editor :=
  if 1 < e.undo.length then
    clamp_cursor
      { lines := (e.undo.dropLast.getLastD ([], 0, 0)).1,
        cy := (e.undo.dropLast.getLastD ([], 0, 0)).2.1,
        cx := (e.undo.dropLast.getLastD ([], 0, 0)).2.2,
        undo := e.undo.dropLast,
        redo := e.redo ++ [e.undo.getLastD ([], 0, 0)] }
  else e

/-- `Editor._do_redo`: when the redo stack is non-empty, pop its top back
onto the undo stack and restore it, then re-clamp the cursor. -/
def do_redo (e : Editor) : Editor :=
  if e.redo.isEmpty then e
  else
    clamp_cursor
      { lines := (e.redo.getLastD ([], 0, 0)).1,
        cy := (e.redo.getLastD ([], 0, 0)).2.1,
        cx := (e.redo.getLastD ([], 0, 0)).2.2,
        undo := e.undo ++ [e.redo.getLastD ([], 0, 0)],
        redo := e.redo.dropLast }

/-- The loop `for i, p in enumerate(parts[1:], start=1):
self.lines.insert(self.cy + i, p)` of `Editor.insert_text`. -/
def insertLoop (lines : List (List Char)) (base : Nat) :
    List (List Char) → Nat → List (List Char)
  | [], _ => lines
  | p :: ps, i => insertLoop (pyInsert lines (base + i) p) base ps (i + 1)

/-- `Editor.insert_text`: splice `s.splitlines()` into the buffer at the
cursor.  The `parts = []` case (empty `s`) raises `IndexError` in Python
and is modelled as the identity; `edit_loop` only ever passes a printable
character or a non-empty paste. -/
def insert_text (s : List Char) (e : Editor) : Editor :=
  let cur := e.lines.getD e.cy []
  let before := cur.take e.cx
  let after := cur.drop e.cx
  let parts := pySplitlines s
  if parts.length = 1 then
    push_undo { e with
      lines := e.lines.set e.cy (before ++ parts.headD [] ++ after),
      cx := e.cx + (parts.headD []).length }
  else if parts.isEmpty then e
  else
    let l1 := e.lines.set e.cy (before ++ parts.headD [])
    let l2 := insertLoop l1 e.cy parts.tail 1
    let k := e.cy + parts.length - 1
    let l3 := l2.set k (l2.getD k [] ++ after)
    push_undo { e with lines := l3, cy := k, cx := (parts.getLastD []).length }

/-- `Editor.newline`: split the current line at the cursor. -/
def newline (e : Editor) : Editor :=
  let cur := e.lines.getD e.cy []
  let before := cur.take e.cx
  let after := cur.drop e.cx
  push_undo { e with
    lines := pyInsert (e.lines.set e.cy before) (e.cy + 1) after,
    cy := e.cy + 1, cx := 0 }

/-- `Editor.backspace`. -/
def backspace (e : Editor) : Editor :=
  if 0 < e.cx then
    let cur := e.lines.getD e.cy []
    push_undo { e with
      lines := e.lines.set e.cy (cur.take (e.cx - 1) ++ cur.drop e.cx),
      cx := e.cx - 1 }
  else if 0 < e.cy then
    let prev := e.lines.getD (e.cy - 1) []
    let cur := e.lines.getD e.cy []
    push_undo { e with
      lines := (e.lines.set (e.cy - 1) (prev ++ cur)).eraseIdx e.cy,
      cy := e.cy - 1, cx := prev.length }
  else e

/-- The first scan of `Editor.delete_prev_word`:
`while pos >= 0 and line[pos] == ' ': pos -= 1`, phrased on `k = pos + 1`
(so `k = 0` stands for `pos = -1`). -/
def skipSpaces (line : List Char) : Nat → Nat
  | 0 => 0
  | k + 1 => if line.getD k '?' = ' ' then skipSpaces line k else k + 1

/-- The second scan of `Editor.delete_prev_word`:
`while pos >= 0 and line[pos] != ' ': pos -= 1`, phrased on `k = pos + 1`. -/
def skipWord (line : List Char) : Nat → Nat
  | 0 => 0
  | k + 1 => if line.getD k ' ' = ' ' then k + 1 else skipWord line k

/-- `Editor.delete_prev_word`: at column 0 merge with the previous line
(no-op on the first line); otherwise delete backwards over a run of
spaces and then a run of non-spaces. -/
def delete_prev_word (e : Editor) : Editor :=
  if e.cx = 0 then
    if e.cy = 0 then e
    else
      let prev := e.lines.getD (e.cy - 1) []
      let cur := e.lines.getD e.cy []
      push_undo { e with
        lines := (e.lines.set (e.cy - 1) (prev ++ cur)).eraseIdx e.cy,
        cy := e.cy - 1, cx := prev.length }
  else
    let line := e.lines.getD e.cy []
    let new_x := skipWord line (skipSpaces line e.cx)
    push_undo { e with
      lines := e.lines.set e.cy (line.take new_x ++ line.drop e.cx),
      cx := new_x }

/-- `KEY_LEFT` handling in `Editor.edit_loop`. -/
def moveLeft (e : Editor) : Editor :=
  if 0 < e.cx then { e with cx := e.cx - 1 }
  else if 0 < e.cy then
    { e with cy := e.cy - 1, cx := (e.lines.getD (e.cy - 1) []).length }
  else e

/-- `KEY_RIGHT` handling in `Editor.edit_loop`. -/
def moveRight (e : Editor) : Editor :=
  if e.cx < (e.lines.getD e.cy []).length then { e with cx := e.cx + 1 }
  else if e.cy < e.lines.length - 1 then { e with cy := e.cy + 1, cx := 0 }
  else e

/-- `KEY_UP` handling in `Editor.edit_loop`. -/
def moveUp (e : Editor) : Editor :=
  if 0 < e.cy then
    { e with cy := e.cy - 1, cx := min e.cx (e.lines.getD (e.cy - 1) []).length }
  else e

/-- `KEY_DOWN` handling in `Editor.edit_loop`. -/
def moveDown (e : Editor) : Editor :=
  if e.cy < e.lines.length - 1 then
    { e with cy := e.cy + 1, cx := min e.cx (e.lines.getD (e.cy + 1) []).length }
  else e

/-- `KEY_HOME` handling in `Editor.edit_loop`. -/
def moveHome (e : Editor) : Editor :=
  { e with cx := 0 }

/-- `KEY_END` handling in `Editor.edit_loop`. -/
def moveEnd (e : Editor) : Editor :=
  { e with cx := (e.lines.getD e.cy []).length }

/-- The four buffer-mutating operations of the editor interface. -/
inductive Mutation where
  | ins (s : List Char)
  | nl
  | bs
  | dpw
deriving DecidableEq, Repr

/-- Apply a mutation as `edit_loop` dispatches it. -/
def applyMut : Mutation → Editor → Editor
  | .ins s => insert_text s
  | .nl => newline
  | .bs => backspace
  | .dpw => delete_prev_word

/-- The cursor-only movement operations of the editor interface. -/
inductive Move where
  | left
  | right
  | up
  | down
  | home
  | ends
deriving DecidableEq, Repr

/-- Apply a cursor movement as `edit_loop` dispatches it. -/
def applyMove : Move → Editor → Editor
  | .left => moveLeft
  | .right => moveRight
  | .up => moveUp
  | .down => moveDown
  | .home => moveHome
  | .ends => moveEnd

/-- An operation of the public editor interface. -/
inductive Op where
  | mu (m : Mutation)
  | mv (v : Move)
  | und
  | red
deriving DecidableEq, Repr

/-- Apply one interface operation. -/
def applyOp : Op → Editor → Editor
  | .mu m => applyMut m
  | .mv v => applyMove v
  | .und => do_undo
  | .red => do_redo

/-- Apply a sequence of interface operations, in order. -/
def applyOps : List Op → Editor → Editor
  | [], e => e
  | op :: ops, e => applyOps ops (applyOp op e)

/-- Apply a sequence of mutations, in order. -/
def applyMuts : List Mutation → Editor → Editor
  | [], e => e
  | m :: ms, e => applyMuts ms (applyMut m e)

/-- Every mutation in the sequence changes the `(lines, cy, cx)` state of
the editor it is applied to. -/
def allChanging (e : Editor) : List Mutation → Prop
  | [] => True
  | m :: ms => stateOf (applyMut m e) ≠ stateOf e ∧ allChanging (applyMut m e) ms

/-- `Editor.__init__` for a note body: split the body on `'\n'` (a single
empty line when the body is empty), place the cursor at the end of the
last line, and push the initial state as the first undo snapshot. -/
def initEditor (body : List Char) : Editor :=
  let lines := if body.isEmpty then [[]] else splitNL body
  let cy := lines.length - 1
  let cx := if lines.isEmpty then 0 else (lines.getD cy []).length
  push_undo { lines := lines, cy := cy, cx := cx, undo := [], redo := [] }

/-- Validity of a snapshot: non-empty line list, row in range, column at
most the row's length.  This is the buffer invariant of the spec. -/
def SnapInv : Snap → Prop
  | (ls, y, x) => ls ≠ [] ∧ y < ls.length ∧ x ≤ (ls.getD y []).length

instance : DecidablePred SnapInv := fun (ls, y, x) => by
  unfold SnapInv; infer_instance

/-- The buffer invariant for an editor state. -/
def Inv (e : Editor) : Prop := SnapInv (stateOf e)

instance (e : Editor) : Decidable (Inv e) := by
  unfold Inv; infer_instance

/-- The number of restorable undo steps: `_do_undo` changes the state
only while the undo stack has more than the one current-state entry. -/
def undoSteps (e : Editor) : Nat := e.undo.length - 1

/-- The `while start < len(text)` loop of
`Editor._logical_to_visual_segments`.  For `width = 0` the Python loop
would not terminate; the drawing code always passes `width ≥ 10`. -/
def segLoop (text : List Char) (width : Nat) (start : Nat) :
    List (List Char × Nat) :=
  if h : width = 0 ∨ text.length ≤ start then []
  else ((text.drop start).take width, start) :: segLoop text width (start + width)
termination_by text.length - start
decreasing_by
  push_neg at h
  omega

/-- `Editor._logical_to_visual_segments`: chunk a logical line into
`(segment_text, start_index)` pairs of up to `width` characters; an empty
line yields one empty segment. -/
def logical_to_visual_segments (text : List Char) (width : Nat) :
    List (List Char × Nat) :=
  if text.isEmpty then [([], 0)] else segLoop text width 0

/-- Modelled from the spec: plain left-to-right chunking of a line into
pieces of up to `width` characters, an empty line giving one empty piece
(§4.4: "produce fixed-size visual segments of up to `W` characters by
simple left-to-right chunking; an empty logical line yields exactly one
empty segment").  Stated only for `width ≥ 1`, as the spec requires. -/
def specChunks (width : Nat) (text : List Char) : List (List Char) :=
  if width = 0 then [[]]
  else if text.length ≤ width then [text]
  else text.take width :: specChunks width (text.drop width)
termination_by text.length
decreasing_by
  rename_i h0 hlen
  push_neg at hlen
  simp only [List.length_drop]
  omega

/-! ### Generic list helpers -/

theorem getD_set_self (l : List α) (i : Nat) (a d : α) (h : i < l.length) :
    (l.set i a).getD i d = a := by
  simp [List.getD, List.getElem?_set_self', h]

theorem getD_set_ne (l : List α) (i j : Nat) (a d : α) (h : i ≠ j) :
    (l.set i a).getD j d = l.getD j d := by
  simp [List.getD, List.getElem?_set_ne h]

theorem getD_append_right (l m : List α) (k : Nat) (d : α) :
    (l ++ m).getD (l.length + k) d = m.getD k d := by
  simp [List.getD, List.getElem?_append_right]

theorem getD_last (l : List α) (d : α) (h : l ≠ []) :
    l.getD (l.length - 1) d = l.getLastD d := by
  induction l with
  | nil => simp at h
  | cons a t ih =>
    cases t with
    | nil => simp [List.getD]
    | cons b t' =>
      have := ih (by simp)
      simpa [List.getD_cons_succ, List.getLastD] using this

theorem getLastD_of_ne_nil (u : List α) (h : u ≠ []) (d d' : α) :
    u.getLastD d = u.getLastD d' := by
  cases u with
  | nil => simp at h
  | cons a t =>
    simp [List.getLastD_eq_getLast?, List.getLast?]

theorem getLastD_tail (u : List α) (h : 2 ≤ u.length) (d : α) :
    u.tail.getLastD d = u.getLastD d := by
  cases u with
  | nil => simp at h
  | cons a t =>
    cases t with
    | nil => simp at h
    | cons b t' => simp [List.getLastD]

/-! ### `pyInsert` and `insertLoop` -/

theorem pyInsert_length (l : List α) (i : Nat) (a : α) :
    (pyInsert l i a).length = l.length + 1 := by
  simp [pyInsert]
  omega

theorem insertLoop_eq (ps : List (List Char)) :
    ∀ (lines : List (List Char)) (base i : Nat), base + i ≤ lines.length →
      insertLoop lines base ps i =
        lines.take (base + i) ++ ps ++ lines.drop (base + i) := by
  induction ps with
  | nil => intro lines base i h; simp [insertLoop]
  | cons p ps ih =>
    intro lines base i h
    rw [insertLoop]
    have hlen : (pyInsert lines (base + i) p).length = lines.length + 1 :=
      pyInsert_length ..
    have h' : base + (i + 1) ≤ (pyInsert lines (base + i) p).length := by omega
    rw [ih _ _ _ h']
    have htk : (lines.take (base + i)).length = base + i := by
      simp [List.length_take]; omega
    unfold pyInsert
    have e1 : base + (i + 1) = (lines.take (base + i)).length + 1 := by omega
    rw [e1, List.take_append, List.drop_append]
    simp

/-! ### Clamp, push and the history stacks -/

theorem stateOf_push_undo (e : Editor) : stateOf (push_undo e) = stateOf e := rfl

theorem inv_clamp_cursor (e : Editor) : Inv (clamp_cursor e) := by
  unfold Inv SnapInv stateOf clamp_cursor
  by_cases h : e.lines.isEmpty <;>
    simp only [h, if_true, if_false, reduceIte] <;>
    refine ⟨?_, ?_, ?_⟩ <;>
    simp_all [List.isEmpty_iff] <;>
    first
      | omega
      | (constructor <;> omega)
      | (have : 0 < e.lines.length := List.length_pos.mpr h; omega)

theorem clamp_cursor_of_snapInv (p : Snap) (u r : List Snap) (h : SnapInv p) :
    stateOf (clamp_cursor { lines := p.1, cy := p.2.1, cx := p.2.2,
                            undo := u, redo := r }) = p := by
  obtain ⟨ls, y, x⟩ := p
  obtain ⟨h1, h2, h3⟩ := h
  unfold clamp_cursor stateOf
  have hne : ls.isEmpty = false := by simpa [List.isEmpty_iff] using h1
  simp only [hne, Bool.false_eq_true, if_false]
  have hy : min y (ls.length - 1) = y := by omega
  rw [hy]
  have hx : min x (ls.getD y []).length = x := by omega
  rw [hx]

theorem clamp_cursor_undo (e : Editor) : (clamp_cursor e).undo = e.undo := rfl

theorem clamp_cursor_redo (e : Editor) : (clamp_cursor e).redo = e.redo := rfl

theorem pushCap_length (u : List Snap) (s : Snap) :
    (pushCap u s).length = if 300 < u.length + 1 then u.length else u.length + 1 := by
  unfold pushCap
  simp only [List.length_append, List.length_singleton]
  by_cases h : 300 < u.length + 1
  · rw [if_pos h, if_pos h, List.length_tail]
    simp
  · rw [if_neg h, if_neg h]
    simp

theorem pushCap_getLastD (u : List Snap) (s : Snap) (d : Snap) :
    (pushCap u s).getLastD d = s := by
  unfold pushCap
  simp only [List.length_append, List.length_singleton]
  by_cases h : 300 < u.length + 1
  · rw [if_pos h]
    cases u with
    | nil => simp at h
    | cons a t => simp
  · rw [if_neg h]
    simp

theorem pushCap_dropLast_getLastD (u : List Snap) (s : Snap) (d : Snap)
    (hu : u ≠ []) :
    (pushCap u s).dropLast.getLastD d = u.getLastD d := by
  unfold pushCap
  simp only [List.length_append, List.length_singleton]
  by_cases h : 300 < u.length + 1
  · rw [if_pos h]
    cases u with
    | nil => simp at h
    | cons a t =>
      simp only [List.cons_append, List.tail_cons]
      rw [List.dropLast_concat, List.getLastD_cons]
      have ht : t ≠ [] := by
        simp only [List.length_cons] at h
        intro hc
        subst hc
        simp at h
      exact getLastD_of_ne_nil t ht d a
  · rw [if_neg h]
    rw [List.dropLast_concat]

theorem do_undo_fields (e' : Editor) (u : List Snap) (s : Snap) (hu : u ≠ [])
    (hundo : e'.undo = pushCap u s) (hredo : e'.redo = []) :
    do_undo e' = clamp_cursor
      { lines := (u.getLastD ([], 0, 0)).1,
        cy := (u.getLastD ([], 0, 0)).2.1,
        cx := (u.getLastD ([], 0, 0)).2.2,
        undo := (pushCap u s).dropLast,
        redo := [s] } := by
  have hlen : 1 < e'.undo.length := by
    rw [hundo, pushCap_length]
    have h0 : u.length ≠ 0 := by simpa [List.length_eq_zero] using hu
    by_cases h : 300 < u.length + 1
    · rw [if_pos h]; omega
    · rw [if_neg h]; omega
  unfold do_undo
  rw [if_pos hlen, hundo, hredo, pushCap_getLastD,
    pushCap_dropLast_getLastD _ _ _ hu]
  rfl

theorem do_redo_single (E : Editor) (s : Snap) (hr : E.redo = [s]) :
    do_redo E = clamp_cursor { lines := s.1, cy := s.2.1, cx := s.2.2,
                               undo := E.undo ++ [s], redo := [] } := by
  unfold do_redo
  rw [hr]
  simp [List.getLastD]

theorem undo_redo_round (e' : Editor) (u : List Snap) (hu : u ≠ [])
    (hundo : e'.undo = pushCap u (stateOf e')) (hredo : e'.redo = [])
    (htop : SnapInv (u.getLastD ([], 0, 0)))
    (hcur : SnapInv (stateOf e')) :
    stateOf (do_undo e') = u.getLastD ([], 0, 0) ∧
    stateOf (do_redo (do_undo e')) = stateOf e' := by
  have hdu := do_undo_fields e' u (stateOf e') hu hundo hredo
  have hredo2 : (do_undo e').redo = [stateOf e'] := by
    rw [hdu, clamp_cursor_redo]
  constructor
  · rw [hdu]
    exact clamp_cursor_of_snapInv _ _ _ htop
  · rw [do_redo_single _ _ hredo2]
    exact clamp_cursor_of_snapInv _ _ _ hcur

/-! ### Preservation of the buffer invariant -/

theorem inv_def (e : Editor) :
    Inv e ↔ e.lines ≠ [] ∧ e.cy < e.lines.length ∧
      e.cx ≤ (e.lines.getD e.cy []).length := Iff.rfl

theorem inv_push_undo_iff (e : Editor) : Inv (push_undo e) ↔ Inv e := Iff.rfl

theorem skipSpaces_le (line : List Char) (k : Nat) : skipSpaces line k ≤ k := by
  induction k with
  | zero => simp [skipSpaces]
  | succ k ih =>
    rw [skipSpaces]
    split
    · omega
    · omega

theorem skipWord_le (line : List Char) (k : Nat) : skipWord line k ≤ k := by
  induction k with
  | zero => simp [skipWord]
  | succ k ih =>
    rw [skipWord]
    split
    · omega
    · omega

theorem inv_insert_text (s : List Char) (e : Editor) (h : Inv e) :
    Inv (insert_text s e) := by
  have hInv := h
  rw [inv_def] at h
  obtain ⟨h1, h2, h3⟩ := h
  have hlen0 : 0 < e.lines.length := List.length_pos.mpr h1
  cases hps : pySplitlines s with
  | nil =>
    have he : insert_text s e = e := by
      simp [insert_text, hps]
    rw [he]
    exact hInv
  | cons a t =>
    by_cases hq : (a :: t).length = 1
    · simp only [insert_text, hps, hq, if_pos, if_true, reduceIte]
      rw [inv_push_undo_iff, inv_def]
      dsimp only
      refine ⟨?_, ?_, ?_⟩
      · rw [← List.length_pos, List.length_set]
        omega
      · rw [List.length_set]
        omega
      · rw [getD_set_self _ _ _ _ h2]
        simp only [List.length_append, List.length_take]
        omega
    · have ht : t ≠ [] := by
        intro hc
        subst hc
        simp at hq
      have htl : 0 < t.length := List.length_pos.mpr ht
      simp only [insert_text, hps, hq, List.isEmpty_cons, Bool.false_eq_true,
        if_false, reduceIte]
      rw [inv_push_undo_iff, inv_def]
      dsimp only
      have hbase : e.cy + 1 ≤
          (e.lines.set e.cy ((e.lines.getD e.cy []).take e.cx ++ (a :: t).headD [])).length := by
        rw [List.length_set]
        omega
      rw [List.tail_cons]
      rw [insertLoop_eq t _ e.cy 1 hbase]
      set l1 := e.lines.set e.cy ((e.lines.getD e.cy []).take e.cx ++ (a :: t).headD [])
        with hl1
      have hl1len : l1.length = e.lines.length := List.length_set ..
      have hA : (l1.take (e.cy + 1)).length = e.cy + 1 := by
        rw [List.length_take]
        omega
      set l2 := l1.take (e.cy + 1) ++ t ++ l1.drop (e.cy + 1) with hl2
      have hl2len : l2.length = e.lines.length + t.length := by
        rw [hl2]
        simp only [List.length_append, List.length_take, List.length_drop]
        omega
      have hk : e.cy + (a :: t).length - 1 = e.cy + t.length := by
        simp only [List.length_cons]
        omega
      have hklt : e.cy + (a :: t).length - 1 < l2.length := by
        rw [hk, hl2len]
        omega
      refine ⟨?_, ?_, ?_⟩
      · rw [← List.length_pos, List.length_set, hl2len]
        omega
      · rw [List.length_set, hl2len, hk]
        omega
      · rw [getD_set_self _ _ _ _ hklt]
        have hget : l2.getD (e.cy + (a :: t).length - 1) [] = t.getLastD [] := by
          rw [hk, hl2, List.append_assoc]
          have he : e.cy + t.length = (l1.take (e.cy + 1)).length + (t.length - 1) := by
            omega
          rw [he, getD_append_right, List.getD_append _ _ _ _ (by omega),
            getD_last t [] ht]
        rw [hget]
        have hlast : (a :: t).getLastD [] = t.getLastD [] := by
          rw [List.getLastD_cons]
          exact getLastD_of_ne_nil t ht a []
        rw [hlast]
        simp [List.length_append]

theorem inv_newline (e : Editor) (h : Inv e) : Inv (newline e) := by
  rw [inv_def] at h
  obtain ⟨h1, h2, h3⟩ := h
  simp only [newline]
  rw [inv_push_undo_iff, inv_def]
  dsimp only
  refine ⟨?_, ?_, ?_⟩
  · rw [← List.length_pos, pyInsert_length, List.length_set]
    omega
  · rw [pyInsert_length, List.length_set]
    omega
  · omega

theorem inv_mergeUp (e : Editor) (h : Inv e) (hcy : 0 < e.cy) :
    Inv (push_undo { e with
      lines := (e.lines.set (e.cy - 1)
        (e.lines.getD (e.cy - 1) [] ++ e.lines.getD e.cy [])).eraseIdx e.cy,
      cy := e.cy - 1, cx := (e.lines.getD (e.cy - 1) []).length }) := by
  rw [inv_def] at h
  obtain ⟨h1, h2, h3⟩ := h
  rw [inv_push_undo_iff, inv_def]
  dsimp only
  set v := e.lines.getD (e.cy - 1) [] ++ e.lines.getD e.cy [] with hv
  have herase : (e.lines.set (e.cy - 1) v).length = e.lines.length :=
    List.length_set ..
  have hlen : ((e.lines.set (e.cy - 1) v).eraseIdx e.cy).length
      = e.lines.length - 1 := by
    rw [List.length_eraseIdx_of_lt (by omega), herase]
  refine ⟨?_, ?_, ?_⟩
  · rw [← List.length_pos, hlen]
    omega
  · rw [hlen]
    omega
  · have hget : ((e.lines.set (e.cy - 1) v).eraseIdx e.cy).getD (e.cy - 1) [] = v := by
      rw [List.eraseIdx_eq_take_drop_succ]
      have htk : ((e.lines.set (e.cy - 1) v).take e.cy).length = e.cy := by
        rw [List.length_take, herase]
        omega
      rw [List.getD_append _ _ _ _ (by omega)]
      have hlt : e.cy - 1 < e.cy := by omega
      have htake : ((e.lines.set (e.cy - 1) v).take e.cy).getD (e.cy - 1) []
          = (e.lines.set (e.cy - 1) v).getD (e.cy - 1) [] := by
        simp [List.getD, List.getElem?_take, hlt]
      rw [htake, getD_set_self _ _ _ _ (by omega)]
    rw [hget, hv]
    simp [List.length_append]

theorem inv_backspace (e : Editor) (h : Inv e) : Inv (backspace e) := by
  by_cases hx : 0 < e.cx
  · rw [inv_def] at h
    obtain ⟨h1, h2, h3⟩ := h
    simp only [backspace, hx, if_true, reduceIte]
    rw [inv_push_undo_iff, inv_def]
    dsimp only
    refine ⟨?_, ?_, ?_⟩
    · rw [← List.length_pos, List.length_set]
      omega
    · rw [List.length_set]
      omega
    · rw [getD_set_self _ _ _ _ h2]
      simp only [List.length_append, List.length_take, List.length_drop]
      omega
  · by_cases hy : 0 < e.cy
    · simp only [backspace, hx, hy, if_false, if_true, reduceIte]
      exact inv_mergeUp e h hy
    · simp only [backspace, hx, hy, if_false, reduceIte]
      exact h

theorem inv_delete_prev_word (e : Editor) (h : Inv e) :
    Inv (delete_prev_word e) := by
  by_cases hx : e.cx = 0
  · by_cases hy : e.cy = 0
    · simp only [delete_prev_word, hx, hy, if_true, reduceIte]
      exact h
    · simp only [delete_prev_word, hx, hy, if_true, if_false, reduceIte]
      exact inv_mergeUp e h (by omega)
  · rw [inv_def] at h
    obtain ⟨h1, h2, h3⟩ := h
    simp only [delete_prev_word, hx, if_false, reduceIte]
    rw [inv_push_undo_iff, inv_def]
    dsimp only
    have hnx : skipWord (e.lines.getD e.cy [])
        (skipSpaces (e.lines.getD e.cy []) e.cx) ≤ e.cx :=
      le_trans (skipWord_le ..) (skipSpaces_le ..)
    refine ⟨?_, ?_, ?_⟩
    · rw [← List.length_pos, List.length_set]
      omega
    · rw [List.length_set]
      omega
    · rw [getD_set_self _ _ _ _ h2]
      simp only [List.length_append, List.length_take]
      omega

theorem inv_applyMut (m : Mutation) (e : Editor) (h : Inv e) :
    Inv (applyMut m e) := by
  cases m with
  | ins s => exact inv_insert_text s e h
  | nl => exact inv_newline e h
  | bs => exact inv_backspace e h
  | dpw => exact inv_delete_prev_word e h

theorem inv_applyMove (v : Move) (e : Editor) (h : Inv e) :
    Inv (applyMove v e) := by
  rw [inv_def] at h
  obtain ⟨h1, h2, h3⟩ := h
  cases v with
  | left =>
    simp only [applyMove, moveLeft]
    split
    · exact ⟨h1, h2, by dsimp only; omega⟩
    · split
      · refine ⟨h1, by dsimp only; omega, ?_⟩
        dsimp only
        exact le_refl _
      · exact ⟨h1, h2, h3⟩
  | right =>
    simp only [applyMove, moveRight]
    split
    · exact ⟨h1, h2, by dsimp only; omega⟩
    · split
      · exact ⟨h1, by dsimp only; omega, by dsimp only; omega⟩
      · exact ⟨h1, h2, h3⟩
  | up =>
    simp only [applyMove, moveUp]
    split
    · exact ⟨h1, by dsimp only; omega, by dsimp only; omega⟩
    · exact ⟨h1, h2, h3⟩
  | down =>
    simp only [applyMove, moveDown]
    split
    · exact ⟨h1, by dsimp only; omega, by dsimp only; omega⟩
    · exact ⟨h1, h2, h3⟩
  | home =>
    simp only [applyMove, moveHome]
    exact ⟨h1, h2, Nat.zero_le _⟩
  | ends =>
    simp only [applyMove, moveEnd]
    exact ⟨h1, h2, le_refl _⟩

theorem inv_do_undo (e : Editor) (h : Inv e) : Inv (do_undo e) := by
  unfold do_undo
  split
  · exact inv_clamp_cursor _
  · exact h

theorem inv_do_redo (e : Editor) (h : Inv e) : Inv (do_redo e) := by
  unfold do_redo
  split
  · exact h
  · exact inv_clamp_cursor _

theorem inv_applyOp (op : Op) (e : Editor) (h : Inv e) : Inv (applyOp op e) := by
  cases op with
  | mu m => exact inv_applyMut m e h
  | mv v => exact inv_applyMove v e h
  | und => exact inv_do_undo e h
  | red => exact inv_do_redo e h

theorem splitNL_ne_nil (s : List Char) : splitNL s ≠ [] := by
  cases s with
  | nil => simp [splitNL]
  | cons c t =>
    rw [splitNL]
    split
    · simp
    · simp

theorem inv_initEditor (body : List Char) : Inv (initEditor body) := by
  unfold initEditor
  rw [inv_push_undo_iff, inv_def]
  by_cases hb : body.isEmpty
  · simp [hb]
  · simp only [hb, Bool.false_eq_true, if_false, reduceIte]
    have hne : splitNL body ≠ [] := splitNL_ne_nil body
    have hlen : 0 < (splitNL body).length := List.length_pos.mpr hne
    have hie : (splitNL body).isEmpty = false := by
      simpa [List.isEmpty_iff] using hne
    refine ⟨hne, by omega, ?_⟩
    rw [hie]
    simp

/-! ### What mutations and movements do to the history stacks -/

theorem insert_text_of_empty (s : List Char) (e : Editor)
    (h0 : pySplitlines s = []) : insert_text s e = e := by
  simp [insert_text, h0]

theorem applyMut_stacks (m : Mutation) (e : Editor)
    (hch : stateOf (applyMut m e) ≠ stateOf e) :
    (applyMut m e).undo = pushCap e.undo (stateOf (applyMut m e)) ∧
    (applyMut m e).redo = [] := by
  cases m with
  | ins s =>
    by_cases h0 : pySplitlines s = []
    · have he : applyMut (Mutation.ins s) e = e :=
        insert_text_of_empty s e h0
      rw [he] at hch
      exact absurd rfl hch
    · by_cases hq : (pySplitlines s).length = 1
      · constructor
        · simp only [applyMut, insert_text, hq, reduceIte]
          rfl
        · simp only [applyMut, insert_text, hq, reduceIte]
          rfl
      · constructor
        · simp only [applyMut, insert_text, hq, List.isEmpty_iff, h0,
            if_false, reduceIte]
          rfl
        · simp only [applyMut, insert_text, hq, List.isEmpty_iff, h0,
            if_false, reduceIte]
          rfl
  | nl => exact ⟨rfl, rfl⟩
  | bs =>
    by_cases hx : 0 < e.cx
    · constructor
      · simp only [applyMut, backspace, hx, if_true, reduceIte]
        rfl
      · simp only [applyMut, backspace, hx, if_true, reduceIte]
        rfl
    · by_cases hy : 0 < e.cy
      · constructor
        · simp only [applyMut, backspace, hx, hy, if_false, if_true, reduceIte]
          rfl
        · simp only [applyMut, backspace, hx, hy, if_false, if_true, reduceIte]
          rfl
      · have he : applyMut Mutation.bs e = e := by
          simp [applyMut, backspace, hx, hy]
        rw [he] at hch
        exact absurd rfl hch
  | dpw =>
    by_cases hx : e.cx = 0
    · by_cases hy : e.cy = 0
      · have he : applyMut Mutation.dpw e = e := by
          simp [applyMut, delete_prev_word, hx, hy]
        rw [he] at hch
        exact absurd rfl hch
      · constructor
        · simp only [applyMut, delete_prev_word, hx, hy, if_true, if_false,
            reduceIte]
          rfl
        · simp only [applyMut, delete_prev_word, hx, hy, if_true, if_false,
            reduceIte]
          rfl
    · constructor
      · simp only [applyMut, delete_prev_word, hx, if_false, reduceIte]
        rfl
      · simp only [applyMut, delete_prev_word, hx, if_false, reduceIte]
        rfl

theorem applyMove_stacks (v : Move) (e : Editor) :
    (applyMove v e).undo = e.undo ∧ (applyMove v e).redo = e.redo := by
  cases v <;>
    simp only [applyMove, moveLeft, moveRight, moveUp, moveDown,
      moveHome, moveEnd] <;>
    (repeat' split) <;>
    first
      | exact ⟨rfl, rfl⟩
      | trivial

/-! ### Equations for `pySplitlines` and a trailing newline -/

theorem pySplitlines_single (c : Char) :
    pySplitlines [c] = if isLineBoundary c then [[]] else [[c]] := rfl

theorem pySplitlines_crlf (t : List Char) :
    pySplitlines ('\r' :: '\n' :: t) = [] :: pySplitlines t := by
  simp [pySplitlines]

theorem pySplitlines_cons2_boundary (c d : Char) (t : List Char)
    (hb : isLineBoundary c = true) (hcr : ¬(c = '\r' ∧ d = '\n')) :
    pySplitlines (c :: d :: t) = [] :: pySplitlines (d :: t) := by
  simp only [pySplitlines, eq_false hcr, if_false, hb, if_true, reduceIte]

theorem pySplitlines_cons2_plain (c d : Char) (t : List Char)
    (hb : isLineBoundary c = false) :
    pySplitlines (c :: d :: t) =
      (c :: (pySplitlines (d :: t)).headD []) :: (pySplitlines (d :: t)).tail := by
  have hcr : ¬(c = '\r' ∧ d = '\n') := by
    rintro ⟨rfl, -⟩
    simp [isLineBoundary] at hb
  simp only [pySplitlines, eq_false hcr, if_false, hb, Bool.false_eq_true,
    reduceIte]

theorem pySplitlines_concat_nl :
    ∀ (t : List Char), t ≠ [] → isLineBoundary (t.getLastD 'a') = false →
      pySplitlines (t ++ ['\n']) = pySplitlines t := by
  suffices H : ∀ (n : Nat) (t : List Char), t.length ≤ n → t ≠ [] →
      isLineBoundary (t.getLastD 'a') = false →
      pySplitlines (t ++ ['\n']) = pySplitlines t by
    intro t hne hlast
    exact H t.length t le_rfl hne hlast
  intro n
  induction n with
  | zero =>
    intro t h hne _
    cases t with
    | nil => exact absurd rfl hne
    | cons c t' => simp at h
  | succ n ih =>
    intro t hlen hne hlast
    match t with
    | [c] =>
      have hc : isLineBoundary c = false := hlast
      show pySplitlines [c, '\n'] = pySplitlines [c]
      rw [pySplitlines_cons2_plain c '\n' [] hc]
      show [[c]] = pySplitlines [c]
      rw [pySplitlines_single c, if_neg (by simp [hc])]
    | c :: d :: t' =>
      have hlast' : isLineBoundary ((d :: t').getLastD 'a') = false := by
        rw [List.getLastD_cons] at hlast
        rwa [getLastD_of_ne_nil (d :: t') (by simp) 'a' c]
      have hlen' : (d :: t').length ≤ n := by
        simp only [List.length_cons] at hlen ⊢
        omega
      by_cases hcr : c = '\r' ∧ d = '\n'
      · obtain ⟨rfl, rfl⟩ := hcr
        cases ht' : t' with
        | nil =>
          subst ht'
          simp [isLineBoundary] at hlast'
        | cons x xs =>
          subst ht'
          rw [List.cons_append, List.cons_append, pySplitlines_crlf,
            pySplitlines_crlf]
          congr 1
          apply ih
          · simp only [List.length_cons] at hlen ⊢
            omega
          · simp
          · rw [List.getLastD_cons] at hlast'
            rwa [getLastD_of_ne_nil (x :: xs) (by simp) 'a' '\n']
      · have hrec := ih (d :: t') hlen' (by simp) hlast'
        by_cases hb : isLineBoundary c = true
        · rw [List.cons_append, List.cons_append,
            pySplitlines_cons2_boundary c d (t' ++ ['\n']) hb hcr,
            pySplitlines_cons2_boundary c d t' hb hcr,
            ← List.cons_append, hrec]
        · have hb' : isLineBoundary c = false := by simpa using hb
          rw [List.cons_append, List.cons_append,
            pySplitlines_cons2_plain c d (t' ++ ['\n']) hb',
            pySplitlines_cons2_plain c d t' hb',
            ← List.cons_append, hrec]

/-! ### History length accounting -/

theorem initEditor_undo_length (body : List Char) :
    (initEditor body).undo.length = 1 := by
  show (pushCap [] _).length = 1
  unfold pushCap
  simp

theorem applyMut_undo_length (m : Mutation) (e : Editor)
    (hch : stateOf (applyMut m e) ≠ stateOf e) (hle : e.undo.length ≤ 300) :
    (applyMut m e).undo.length = min (e.undo.length + 1) 300 := by
  rw [(applyMut_stacks m e hch).1, pushCap_length]
  by_cases h : 300 < e.undo.length + 1
  · rw [if_pos h]
    omega
  · rw [if_neg h]
    omega

theorem applyMuts_undo_length :
    ∀ (ms : List Mutation) (e : Editor), allChanging e ms →
      1 ≤ e.undo.length → e.undo.length ≤ 300 →
      (applyMuts ms e).undo.length = min (e.undo.length + ms.length) 300 := by
  intro ms
  induction ms with
  | nil =>
    intro e _ h1 h2
    simp only [applyMuts, List.length_nil]
    omega
  | cons m ms ih =>
    intro e hall h1 h2
    obtain ⟨hch, hall'⟩ := hall
    have hstep := applyMut_undo_length m e hch h2
    have h1' : 1 ≤ (applyMut m e).undo.length := by omega
    have h2' : (applyMut m e).undo.length ≤ 300 := by omega
    simp only [applyMuts]
    rw [ih _ hall' h1' h2', hstep]
    simp only [List.length_cons]
    omega

theorem stateOf_newline_ne (e : Editor) : stateOf (newline e) ≠ stateOf e := by
  intro h
  have hl : (newline e).lines = e.lines := congrArg Prod.fst h
  have hlen : (newline e).lines.length = e.lines.length + 1 := by
    show (pyInsert (e.lines.set e.cy _) (e.cy + 1) _).length = _
    rw [pyInsert_length, List.length_set]
  rw [hl] at hlen
  omega

theorem allChanging_replicate_nl :
    ∀ (n : Nat) (e : Editor), allChanging e (List.replicate n Mutation.nl) := by
  intro n
  induction n with
  | zero => intro e; trivial
  | succ n ih =>
    intro e
    rw [List.replicate_succ]
    exact ⟨stateOf_newline_ne e, ih _⟩

theorem do_undo_of_length_le_one (e : Editor) (h : e.undo.length ≤ 1) :
    do_undo e = e := by
  unfold do_undo
  rw [if_neg (by omega)]

theorem do_undo_undo_length (e : Editor) (h : 1 < e.undo.length) :
    (do_undo e).undo.length = e.undo.length - 1 := by
  unfold do_undo
  rw [if_pos h, clamp_cursor_undo]
  simp

/-! ### Visual segmentation -/

theorem segLoop_map_fst (W : Nat) (hW : 1 ≤ W) :
    ∀ (text : List Char) (start : Nat), start < text.length →
      (segLoop text W start).map Prod.fst = specChunks W (text.drop start) := by
  intro text
  suffices H : ∀ (fuel start : Nat), text.length - start ≤ fuel →
      start < text.length →
      (segLoop text W start).map Prod.fst = specChunks W (text.drop start) by
    intro start h
    exact H (text.length - start) start le_rfl h
  intro fuel
  induction fuel with
  | zero =>
    intro start h1 h2
    omega
  | succ fuel ih =>
    intro start h1 h2
    rw [segLoop, dif_neg (by omega : ¬(W = 0 ∨ text.length ≤ start))]
    rw [List.map_cons]
    by_cases hrem : text.length - start ≤ W
    · have hstop : segLoop text W (start + W) = [] := by
        rw [segLoop, dif_pos]
        right
        omega
      rw [hstop, List.map_nil]
      rw [specChunks, if_neg (by omega : ¬W = 0),
        if_pos (by rw [List.length_drop]; omega)]
      rw [List.take_all_of_le (by rw [List.length_drop]; omega)]
    · rw [specChunks, if_neg (by omega : ¬W = 0),
        if_neg (by rw [List.length_drop]; omega)]
      congr 1
      rw [List.drop_drop]
      exact ih (start + W) (by omega) (by omega)

theorem specChunks_of_length_25 (text : List Char) (h : text.length = 25) :
    (specChunks 10 text).map List.length = [10, 10, 5] := by
  rw [specChunks, if_neg (by omega : ¬(10 : Nat) = 0), if_neg (by omega)]
  rw [specChunks, if_neg (by omega : ¬(10 : Nat) = 0),
    if_neg (by rw [List.length_drop]; omega)]
  rw [specChunks, if_neg (by omega : ¬(10 : Nat) = 0),
    if_pos (by simp only [List.length_drop]; omega)]
  simp only [List.map_cons, List.map_nil, List.length_take, List.length_drop]
  simp only [h]
  rfl

/-! ## Claim theorems -/

/-- C2: for a valid editor state whose undo stack is non-empty with a
valid top snapshot, after any state-changing mutation `m`, `undo()`
restores exactly the lines and cursor recorded in the most recent
snapshot taken before `m` (the top of the undo stack), and `redo()`
immediately afterwards restores exactly the post-`m` state (the snapshot
`m` pushed). -/
theorem c2_undo_redo_inverse (e : Editor) (m : Mutation)
    (hInv : Inv e) (hu : e.undo ≠ [])
    (htop : SnapInv (e.undo.getLastD ([], 0, 0)))
    (hch : stateOf (applyMut m e) ≠ stateOf e) :
    stateOf (do_undo (applyMut m e)) = e.undo.getLastD ([], 0, 0) ∧
    stateOf (do_redo (do_undo (applyMut m e))) = stateOf (applyMut m e) := by
  obtain ⟨hundo, hredo⟩ := applyMut_stacks m e hch
  exact undo_redo_round (applyMut m e) e.undo hu hundo hredo htop
    (inv_applyMut m e hInv)

/-- Witness for C2: a newline mutation on the editor opened on body
`"ab"`, undone and redone. -/
theorem c2_witness :
    stateOf (do_undo (applyMut Mutation.nl (initEditor ['a', 'b']))) =
      (initEditor ['a', 'b']).undo.getLastD ([], 0, 0) ∧
    stateOf (do_redo (do_undo (applyMut Mutation.nl (initEditor ['a', 'b'])))) =
      stateOf (applyMut Mutation.nl (initEditor ['a', 'b'])) :=
  c2_undo_redo_inverse (initEditor ['a', 'b']) Mutation.nl
    (by decide) (by decide) (by decide) (by decide)

/-- C3: starting an edit session from any note body, the buffer invariant
(non-empty line list, `row < len(lines)`, `col ≤ len(lines[row])`) holds
after every sequence of public interface operations (mutations, cursor
movements, undo and redo). -/
theorem c3_buffer_invariant (body : List Char) (ops : List Op) :
    Inv (applyOps ops (initEditor body)) := by
  suffices H : ∀ (l : List Op) (e : Editor), Inv e → Inv (applyOps l e) from
    H ops (initEditor body) (inv_initEditor body)
  intro l
  induction l with
  | nil => intro e h; exact h
  | cons op l ih =>
    intro e h
    exact ih (applyOp op e) (inv_applyOp op e h)

/-- C4 (amended): any more than 300 state-changing mutations from a fresh
editor leave an undo stack of exactly 300 snapshots, of which the top one
is the current state, so exactly 299 restorable undo steps remain. -/
theorem c4_history_cap (body : List Char) (ms : List Mutation)
    (hall : allChanging (initEditor body) ms) (hlen : 300 < ms.length) :
    (applyMuts ms (initEditor body)).undo.length = 300 ∧
    undoSteps (applyMuts ms (initEditor body)) = 299 := by
  have h := applyMuts_undo_length ms (initEditor body) hall
    (by rw [initEditor_undo_length]) (by rw [initEditor_undo_length]; omega)
  rw [initEditor_undo_length] at h
  unfold undoSteps
  rw [h]
  omega

/-- Witness for C4: 301 newline mutations from the editor on the empty
body. -/
theorem c4_witness :
    (applyMuts (List.replicate 301 Mutation.nl) (initEditor [])).undo.length
      = 300 ∧
    undoSteps (applyMuts (List.replicate 301 Mutation.nl) (initEditor []))
      = 299 :=
  c4_history_cap [] (List.replicate 301 Mutation.nl)
    (allChanging_replicate_nl 301 (initEditor []))
    (by rw [List.length_replicate]; omega)

/-- C4 counterexample: 301 state-changing mutations from a fresh editor
leave 299 restorable undo steps (the capped stack holds 300 snapshots
including the current state), not 300 as the claim states. -/
theorem c4_counterexample :
    undoSteps (applyMuts (List.replicate 301 Mutation.nl) (initEditor []))
      ≠ 300 := by
  have h := applyMuts_undo_length (List.replicate 301 Mutation.nl)
    (initEditor []) (allChanging_replicate_nl 301 (initEditor []))
    (by rw [initEditor_undo_length]) (by rw [initEditor_undo_length]; omega)
  rw [initEditor_undo_length, List.length_replicate] at h
  unfold undoSteps
  rw [h]
  omega

/-- C5 (amended): on the single line `"hello   world"` with the cursor at
the end, the first `delete_prev_word` leaves `"hello   "` with the cursor
at column 8; the second call skips the trailing space run and then the
word `"hello"`, deleting both and leaving a single empty line; a third
call is a no-op. -/
theorem c5_delete_prev_word_hello :
    (delete_prev_word ⟨["hello   world".toList], 0, 13, [], []⟩).lines
        = ["hello   ".toList] ∧
    (delete_prev_word ⟨["hello   world".toList], 0, 13, [], []⟩).cx = 8 ∧
    (delete_prev_word (delete_prev_word
        ⟨["hello   world".toList], 0, 13, [], []⟩)).lines = [[]] ∧
    (delete_prev_word (delete_prev_word
        ⟨["hello   world".toList], 0, 13, [], []⟩)).cx = 0 ∧
    delete_prev_word (delete_prev_word (delete_prev_word
        ⟨["hello   world".toList], 0, 13, [], []⟩)) =
      delete_prev_word (delete_prev_word
        ⟨["hello   world".toList], 0, 13, [], []⟩) := by
  decide

/-- C5 counterexample: the claim says the second `delete_prev_word` call
deletes only the trailing spaces and leaves `"hello"`; in the code the
second call also deletes `"hello"`, leaving the empty line. -/
theorem c5_counterexample :
    (delete_prev_word (delete_prev_word
        ⟨["hello   world".toList], 0, 13, [], []⟩)).lines
      ≠ ["hello".toList] := by
  decide

/-- C6: for any width `W ≥ 1` the visual layout of a logical line is its
left-to-right chunking into pieces of up to `W` characters (`specChunks`,
written from the spec's words); an empty line yields exactly one empty
segment starting at index 0; and at `W = 10` a line of length 25 yields
exactly the segment lengths `[10, 10, 5]`. -/
theorem c6_visual_wrap (W : Nat) (text : List Char) (hW : 1 ≤ W) :
    (logical_to_visual_segments text W).map Prod.fst = specChunks W text ∧
    (text = [] → logical_to_visual_segments text W = [([], 0)]) ∧
    (W = 10 → text.length = 25 →
      (logical_to_visual_segments text W).map (fun p => p.1.length)
        = [10, 10, 5]) := by
  have hmain : (logical_to_visual_segments text W).map Prod.fst
      = specChunks W text := by
    by_cases ht : text = []
    · subst ht
      show [([], 0)].map Prod.fst = specChunks W []
      rw [specChunks, if_neg (by omega : ¬W = 0), if_pos (by simp)]
      simp
    · have h0 : 0 < text.length := List.length_pos.mpr ht
      unfold logical_to_visual_segments
      rw [if_neg (by simpa [List.isEmpty_iff] using ht)]
      simpa using segLoop_map_fst W hW text 0 h0
  refine ⟨hmain, ?_, ?_⟩
  · intro ht
    subst ht
    rfl
  · intro hw hlen
    subst hw
    have : (logical_to_visual_segments text 10).map (fun p => p.1.length)
        = ((logical_to_visual_segments text 10).map Prod.fst).map
            List.length := by
      simp [List.map_map]
    rw [this, hmain]
    exact specChunks_of_length_25 text hlen

/-- Witness for C6: a line of 25 `'a'`s at width 10. -/
theorem c6_witness :
    ((logical_to_visual_segments (List.replicate 25 'a') 10).map Prod.fst
        = specChunks 10 (List.replicate 25 'a') ∧
      (List.replicate 25 'a' = ([] : List Char) →
        logical_to_visual_segments (List.replicate 25 'a') 10 = [([], 0)]) ∧
      ((10 : Nat) = 10 → (List.replicate 25 'a').length = 25 →
        (logical_to_visual_segments (List.replicate 25 'a') 10).map
            (fun p => p.1.length) = [10, 10, 5])) :=
  c6_visual_wrap 10 (List.replicate 25 'a') (by omega)

theorem take_append_cons_one (A B : List α) (v : α) :
    (A ++ v :: B).take (A.length + 1) = A ++ [v] := by
  rw [List.take_append]
  rfl

theorem drop_append_cons_two (A B : List α) (v : α) :
    (A ++ v :: B).drop (A.length + 2) = B.drop 1 := by
  rw [List.drop_append]
  rfl

/-- C7: for any valid buffer state with the cursor at column 0 of a
non-first row, `backspace` merges the current line onto the end of the
previous line, removes the current line, and puts the cursor at the old
end of the previous line. -/
theorem c7_backspace_merge (e : Editor) (hInv : Inv e) (hcx : e.cx = 0)
    (hcy : 0 < e.cy) :
    (backspace e).lines =
      e.lines.take (e.cy - 1) ++
        (e.lines.getD (e.cy - 1) [] ++ e.lines.getD e.cy []) ::
          e.lines.drop (e.cy + 1) ∧
    (backspace e).cy = e.cy - 1 ∧
    (backspace e).cx = (e.lines.getD (e.cy - 1) []).length := by
  rw [inv_def] at hInv
  obtain ⟨h1, h2, h3⟩ := hInv
  have hx : ¬ 0 < e.cx := by omega
  simp only [backspace, hx, hcy, if_false, if_true, reduceIte]
  refine ⟨?_, rfl, rfl⟩
  show (e.lines.set (e.cy - 1)
      (e.lines.getD (e.cy - 1) [] ++ e.lines.getD e.cy [])).eraseIdx e.cy = _
  set v := e.lines.getD (e.cy - 1) [] ++ e.lines.getD e.cy [] with hv
  rw [List.set_eq_take_cons_drop v (by omega), List.eraseIdx_eq_take_drop_succ]
  have htk : (e.lines.take (e.cy - 1)).length = e.cy - 1 := by
    rw [List.length_take]
    omega
  have h4 : e.cy - 1 + 1 = e.cy := by omega
  rw [h4]
  have htake := take_append_cons_one (e.lines.take (e.cy - 1))
    (e.lines.drop e.cy) v
  rw [htk, h4] at htake
  have hdrop := drop_append_cons_two (e.lines.take (e.cy - 1))
    (e.lines.drop e.cy) v
  rw [htk, List.drop_drop,
    show e.cy - 1 + 2 = e.cy + 1 from by omega] at hdrop
  rw [htake, hdrop, List.append_assoc]
  rfl

/-- Witness for C7: buffer `["abc", "def"]` with cursor `(1, 0)` becomes
`["abcdef"]` with cursor `(0, 3)`. -/
theorem c7_witness :
    (backspace ⟨["abc".toList, "def".toList], 1, 0, [], []⟩).lines
        = ["abcdef".toList] ∧
    (backspace ⟨["abc".toList, "def".toList], 1, 0, [], []⟩).cy = 0 ∧
    (backspace ⟨["abc".toList, "def".toList], 1, 0, [], []⟩).cx = 3 :=
  c7_backspace_merge ⟨["abc".toList, "def".toList], 1, 0, [], []⟩
    (by decide) rfl (by decide)

/-- C8 (amended): every application of a mutating operation that changes
the buffer state pushes exactly one undo snapshot (the post-mutation
state, with the 300-entry cap) and clears the redo stack; cursor-only
movements always leave both stacks unchanged. -/
theorem c8_frame_effect :
    (∀ (e : Editor) (m : Mutation), stateOf (applyMut m e) ≠ stateOf e →
      (applyMut m e).undo = pushCap e.undo (stateOf (applyMut m e)) ∧
      (applyMut m e).redo = []) ∧
    (∀ (e : Editor) (v : Move),
      (applyMove v e).undo = e.undo ∧ (applyMove v e).redo = e.redo) :=
  ⟨fun e m hch => applyMut_stacks m e hch, fun e v => applyMove_stacks v e⟩

/-- Witness for C8: a newline mutation pushes and clears; a left movement
leaves the stacks alone. -/
theorem c8_witness :
    ((applyMut Mutation.nl (initEditor ['a'])).undo
        = pushCap (initEditor ['a']).undo
            (stateOf (applyMut Mutation.nl (initEditor ['a']))) ∧
      (applyMut Mutation.nl (initEditor ['a'])).redo = []) ∧
    ((applyMove Move.left (initEditor ['a'])).undo = (initEditor ['a']).undo ∧
      (applyMove Move.left (initEditor ['a'])).redo
        = (initEditor ['a']).redo) :=
  ⟨c8_frame_effect.1 (initEditor ['a']) Mutation.nl (by decide),
    c8_frame_effect.2 (initEditor ['a']) Move.left⟩

/-- C8 counterexample: `backspace` is a mutating operation, but applied at
`(0, 0)` it pushes no snapshot and does not clear a non-empty redo
stack. -/
theorem c8_counterexample :
    ¬ ((backspace ⟨[['a']], 0, 0, [([['a']], 0, 0)], [([[]], 0, 0)]⟩).undo
          = pushCap [([['a']], 0, 0)]
              (stateOf (backspace
                ⟨[['a']], 0, 0, [([['a']], 0, 0)], [([[]], 0, 0)]⟩)) ∧
        (backspace ⟨[['a']], 0, 0, [([['a']], 0, 0)], [([[]], 0, 0)]⟩).redo
          = []) := by
  decide

/-- C9: inserting a text that ends in exactly one line break behaves
exactly like inserting the text without that final break: `splitlines`
drops the trailing break, so no new line is created and the cursor stays
on the same row. -/
theorem c9_trailing_newline (t : List Char) (e : Editor) (hne : t ≠ [])
    (hlast : isLineBoundary (t.getLastD 'a') = false) :
    insert_text (t ++ ['\n']) e = insert_text t e := by
  unfold insert_text
  rw [pySplitlines_concat_nl t hne hlast]

/-- Witness for C9: inserting `"abc\n"` equals inserting `"abc"`. -/
theorem c9_witness :
    insert_text ('a' :: 'b' :: 'c' :: ['\n']) (initEditor []) =
      insert_text ['a', 'b', 'c'] (initEditor []) :=
  c9_trailing_newline ['a', 'b', 'c'] (initEditor []) (by decide) (by decide)

/-- C10: an edit session on any note body starts with the cursor at the
end of the last line (`row = len(lines) - 1`,
`col = len(lines[row])`) and with the initial state pushed as the single
first undo snapshot (and an empty redo stack). -/
theorem c10_init_cursor (body : List Char) :
    (initEditor body).cy = (initEditor body).lines.length - 1 ∧
    (initEditor body).cx = ((initEditor body).lines.getLastD []).length ∧
    (initEditor body).undo = [stateOf (initEditor body)] ∧
    (initEditor body).redo = [] := by
  by_cases hb : body.isEmpty
  · simp only [initEditor, hb, if_true, reduceIte]
    exact ⟨rfl, rfl, rfl, rfl⟩
  · have hL : splitNL body ≠ [] := splitNL_ne_nil body
    have hie : (splitNL body).isEmpty = false := by
      simpa [List.isEmpty_iff] using hL
    simp only [initEditor, hb, hie, Bool.false_eq_true, if_false, reduceIte]
    refine ⟨rfl, ?_, rfl, rfl⟩
    show ((splitNL body).getD ((splitNL body).length - 1) []).length = _
    rw [getD_last (splitNL body) [] hL]
    rfl

/-! ### Text lemmas for the store round trip -/

theorem rstrip_nil : rstrip [] = [] := rfl

theorem rstrip_cons_of_ne (c : Char) (t : List Char) (h : rstrip t ≠ []) :
    rstrip (c :: t) = c :: rstrip t := by
  have hie : (rstrip t).isEmpty = false := by
    simpa [List.isEmpty_iff] using h
  simp [rstrip, hie]

theorem rstrip_append (s t : List Char) :
    rstrip (s ++ t) =
      if (rstrip t).isEmpty then rstrip s else s ++ rstrip t := by
  induction s with
  | nil =>
    by_cases h : (rstrip t).isEmpty
    · rw [if_pos h, List.nil_append, rstrip_nil]
      simpa [List.isEmpty_iff] using h
    · rw [if_neg h, List.nil_append, List.nil_append]
  | cons c s ih =>
    by_cases h : (rstrip t).isEmpty
    · rw [if_pos h] at ih ⊢
      show rstrip (c :: (s ++ t)) = rstrip (c :: s)
      rw [rstrip, rstrip, ih]
    · rw [if_neg h] at ih ⊢
      have hne : rstrip t ≠ [] := by simpa [List.isEmpty_iff] using h
      show rstrip (c :: (s ++ t)) = (c :: s) ++ rstrip t
      rw [rstrip_cons_of_ne c (s ++ t)
          (by rw [ih]; intro hc; exact hne (List.append_eq_nil.mp hc).2),
        ih, List.cons_append]

theorem rstrip_append_of_ne (s t : List Char) (h : rstrip t ≠ []) :
    rstrip (s ++ t) = s ++ rstrip t := by
  rw [rstrip_append, if_neg (by simpa [List.isEmpty_iff] using h)]

theorem rstrip_concat_nl (s : List Char) : rstrip (s ++ ['\n']) = rstrip s := by
  rw [rstrip_append]
  rfl

theorem rstrip_noteBlock (n : Note) (hc : CleanNote n) :
    rstrip (noteBlock n) = noteBlock n := by
  obtain ⟨ht1, ht2, ht3, ht4, hb1, hb2, hb3⟩ := hc
  unfold noteBlock
  by_cases hb : n.body.isEmpty
  · simp only [hb, if_true, reduceIte, List.append_nil]
    show rstrip ('#' :: ' ' :: n.title) = '#' :: ' ' :: n.title
    rw [rstrip_cons_of_ne '#' (' ' :: n.title)
        (by rw [rstrip_cons_of_ne ' ' n.title (by rw [ht3]; exact ht1)]; simp),
      rstrip_cons_of_ne ' ' n.title (by rw [ht3]; exact ht1), ht3]
  · have hbne : n.body ≠ [] := by simpa [List.isEmpty_iff] using hb
    simp only [hb, Bool.false_eq_true, if_false, reduceIte]
    have hnl : rstrip ('\n' :: n.body) = '\n' :: n.body := by
      rw [rstrip_cons_of_ne '\n' n.body (by rw [hb1]; exact hbne), hb1]
    rw [rstrip_append_of_ne _ _ (by rw [hnl]; simp), hnl]

theorem joinNL_nil : joinNL [] = [] := rfl

theorem joinNL_single (l : List Char) : joinNL [l] = l := by
  simp [joinNL]

theorem joinNL_cons_of_ne (l : List Char) (ls : List (List Char))
    (h : ls ≠ []) : joinNL (l :: ls) = l ++ '\n' :: joinNL ls := by
  have hie : ls.isEmpty = false := by simpa [List.isEmpty_iff] using h
  simp [joinNL, hie]

theorem joinNL_concat_nil (xs : List (List Char)) (h : xs ≠ []) :
    joinNL (xs ++ [[]]) = joinNL xs ++ ['\n'] := by
  induction xs with
  | nil => exact absurd rfl h
  | cons x xs ih =>
    cases xs with
    | nil =>
      rw [List.cons_append, List.nil_append, joinNL_cons_of_ne x [[]] (by simp),
        joinNL_single, joinNL_single]
    | cons y ys =>
      rw [List.cons_append, joinNL_cons_of_ne x ((y :: ys) ++ [[]]) (by simp),
        joinNL_cons_of_ne x (y :: ys) (by simp), ih (by simp),
        List.append_assoc]
      rfl

theorem splitNL_cons_nl (t : List Char) : splitNL ('\n' :: t) = [] :: splitNL t := by
  simp [splitNL]

theorem splitNL_cons_ne (c : Char) (t : List Char) (h : c ≠ '\n') :
    splitNL (c :: t) = (c :: (splitNL t).headD []) :: (splitNL t).tail := by
  simp only [splitNL, eq_false h, if_false, reduceIte]

theorem joinNL_splitNL (s : List Char) : joinNL (splitNL s) = s := by
  induction s with
  | nil => rfl
  | cons c t ih =>
    by_cases h : c = '\n'
    · subst h
      rw [splitNL_cons_nl, joinNL_cons_of_ne [] (splitNL t) (splitNL_ne_nil t),
        List.nil_append, ih]
    · rw [splitNL_cons_ne c t h]
      cases hs : splitNL t with
      | nil => exact absurd hs (splitNL_ne_nil t)
      | cons x xs =>
        rw [hs] at ih
        simp only [List.headD_cons, List.tail_cons]
        cases xs with
        | nil =>
          rw [joinNL_single] at ih ⊢
          rw [← ih]
        | cons y ys =>
          rw [joinNL_cons_of_ne x (y :: ys) (by simp)] at ih
          rw [joinNL_cons_of_ne (c :: x) (y :: ys) (by simp),
            List.cons_append, ih]

theorem splitNL_append (a b : List Char) (h : '\n' ∉ a) :
    splitNL (a ++ '\n' :: b) = a :: splitNL b := by
  induction a with
  | nil =>
    rw [List.nil_append, splitNL_cons_nl]
  | cons c a ih =>
    have hc : c ≠ '\n' := by
      intro hc
      exact h (by rw [hc]; simp)
    have ha : '\n' ∉ a := fun hm => h (List.mem_cons_of_mem c hm)
    rw [List.cons_append, splitNL_cons_ne c _ hc, ih ha]
    rfl

theorem splitNL_no_nl (s : List Char) (h : '\n' ∉ s) : splitNL s = [s] := by
  induction s with
  | nil => rfl
  | cons c t ih =>
    have hc : c ≠ '\n' := by
      intro hc
      exact h (by rw [hc]; simp)
    have ht : '\n' ∉ t := fun hm => h (List.mem_cons_of_mem c hm)
    rw [splitNL_cons_ne c t hc, ih ht]
    rfl

theorem pySplitlines_cons_nl (r : List Char) :
    pySplitlines ('\n' :: r) = [] :: pySplitlines r := by
  cases r with
  | nil => rfl
  | cons d t =>
    rw [pySplitlines_cons2_boundary '\n' d t rfl (by rintro ⟨h, -⟩; exact absurd h (by decide))]

theorem pySplitlines_cons_plain (c : Char) (l : List Char)
    (hb : isLineBoundary c = false) (hne : l ≠ []) :
    pySplitlines (c :: l) =
      (c :: (pySplitlines l).headD []) :: (pySplitlines l).tail := by
  cases l with
  | nil => exact absurd rfl hne
  | cons d t => exact pySplitlines_cons2_plain c d t hb

theorem pySplitlines_join_nl (s r : List Char)
    (hs : ∀ c ∈ s, isLineBoundary c = true → c = '\n') :
    pySplitlines (s ++ '\n' :: r) = splitNL s ++ pySplitlines r := by
  induction s with
  | nil =>
    rw [List.nil_append, pySplitlines_cons_nl]
    rfl
  | cons c s ih =>
    have hs' : ∀ x ∈ s, isLineBoundary x = true → x = '\n' :=
      fun x hx => hs x (List.mem_cons_of_mem c hx)
    by_cases hc : c = '\n'
    · subst hc
      rw [List.cons_append, pySplitlines_cons_nl, splitNL_cons_nl, ih hs']
      rfl
    · have hcb : isLineBoundary c = false := by
        by_cases hb : isLineBoundary c = true
        · exact absurd (hs c (by simp) hb) hc
        · simpa using hb
      rw [List.cons_append,
        pySplitlines_cons_plain c (s ++ '\n' :: r) hcb (by simp),
        ih hs', splitNL_cons_ne c s hc]
      cases hsp : splitNL s with
      | nil => exact absurd hsp (splitNL_ne_nil s)
      | cons y ys =>
        simp

/-! ### The saved text of a clean note list -/

theorem saveOut_ne_nil (n : Note) (ns : List Note) : saveOut (n :: ns) ≠ [] := by
  simp [saveOut]

theorem savedRec_ne_nil (n : Note) (ns : List Note) : savedRec (n :: ns) ≠ [] := by
  simp [savedRec, noteBlock]

theorem joinNL_saveOut_single (n : Note) (hb : rstrip n.body = n.body) :
    joinNL (saveOut [n]) = noteBlock n ++ ['\n'] := by
  show joinNL (('#' :: ' ' :: n.title) ::
      ((if n.body.isEmpty then [] else [rstrip n.body]) ++ [[]])) = _
  by_cases h : n.body.isEmpty
  · simp only [h, if_true, reduceIte, List.nil_append]
    rw [joinNL_cons_of_ne _ _ (by simp), joinNL_single]
    simp [noteBlock, h]
  · simp only [h, Bool.false_eq_true, if_false, reduceIte, List.cons_append,
      List.nil_append]
    rw [hb, joinNL_cons_of_ne _ _ (by simp), joinNL_cons_of_ne _ _ (by simp),
      joinNL_single]
    simp [noteBlock, h]

theorem joinNL_saveOut_cons (n m : Note) (ns : List Note)
    (hb : rstrip n.body = n.body) :
    joinNL (saveOut (n :: m :: ns)) =
      noteBlock n ++ '\n' :: '\n' :: joinNL (saveOut (m :: ns)) := by
  show joinNL (('#' :: ' ' :: n.title) ::
      ((if n.body.isEmpty then [] else [rstrip n.body]) ++
        ([] :: saveOut (m :: ns)))) = _
  by_cases h : n.body.isEmpty
  · simp only [h, if_true, reduceIte, List.nil_append]
    rw [joinNL_cons_of_ne _ _ (by simp),
      joinNL_cons_of_ne [] _ (saveOut_ne_nil m ns), List.nil_append]
    simp [noteBlock, h]
  · simp only [h, Bool.false_eq_true, if_false, reduceIte, List.cons_append,
      List.nil_append]
    rw [hb, joinNL_cons_of_ne _ _ (by simp), joinNL_cons_of_ne _ _ (by simp),
      joinNL_cons_of_ne [] _ (saveOut_ne_nil m ns), List.nil_append]
    simp [noteBlock, h]

theorem savedRec_rstrip (ns : List Note) (h : ∀ n ∈ ns, CleanNote n) :
    rstrip (joinNL (saveOut ns)) = savedRec ns := by
  induction ns with
  | nil => rfl
  | cons n rest ih =>
    have hn : CleanNote n := h n (by simp)
    have hb : rstrip n.body = n.body := hn.2.2.2.2.1
    cases rest with
    | nil =>
      rw [joinNL_saveOut_single n hb, rstrip_concat_nl, rstrip_noteBlock n hn]
      simp [savedRec]
    | cons m rest' =>
      have hrest : ∀ x ∈ m :: rest', CleanNote x :=
        fun x hx => h x (List.mem_cons_of_mem n hx)
      rw [joinNL_saveOut_cons n m rest' hb]
      have hne : rstrip (joinNL (saveOut (m :: rest'))) ≠ [] := by
        rw [ih hrest]
        exact savedRec_ne_nil m rest'
      rw [show noteBlock n ++ '\n' :: '\n' :: joinNL (saveOut (m :: rest'))
            = (noteBlock n ++ ['\n', '\n']) ++ joinNL (saveOut (m :: rest'))
          from by simp,
        rstrip_append_of_ne _ _ hne, ih hrest]
      simp [savedRec]

theorem title_no_nl (n : Note) (hc : CleanNote n) : '\n' ∉ n.title := by
  intro hm
  have := hc.2.2.2.1 '\n' hm
  simp [isLineBoundary] at this

theorem headLine_no_nl (n : Note) (hc : CleanNote n) :
    '\n' ∉ ('#' :: ' ' :: n.title) := by
  intro hm
  simp only [List.mem_cons] at hm
  rcases hm with h | h | h
  · simp at h
  · simp at h
  · exact title_no_nl n hc h

theorem noteBlock_boundary (n : Note) (hc : CleanNote n) :
    ∀ c ∈ noteBlock n, isLineBoundary c = true → c = '\n' := by
  obtain ⟨-, -, -, ht4, -, hb2, -⟩ := hc
  intro c hmem hbd
  by_cases hbe : n.body.isEmpty
  · simp only [noteBlock, hbe, if_true, reduceIte, List.append_nil,
      List.mem_cons] at hmem
    rcases hmem with h | h | h
    · subst h
      simp [isLineBoundary] at hbd
    · subst h
      simp [isLineBoundary] at hbd
    · rw [ht4 c h] at hbd
      simp at hbd
  · simp only [noteBlock, hbe, Bool.false_eq_true, if_false, reduceIte,
      List.mem_append, List.mem_cons] at hmem
    rcases hmem with (h | h | h) | (h | h)
    · subst h
      simp [isLineBoundary] at hbd
    · subst h
      simp [isLineBoundary] at hbd
    · rw [ht4 c h] at hbd
      simp at hbd
    · exact h
    · exact hb2 c h hbd

theorem pySplitlines_savedRec (ns : List Note) :
    ∀ (n : Note), (∀ x ∈ n :: ns, CleanNote x) →
      pySplitlines (savedRec (n :: ns) ++ ['\n']) = lineList (n :: ns) := by
  induction ns with
  | nil =>
    intro n h
    have hn := h n (by simp)
    rw [show savedRec [n] = noteBlock n from by simp [savedRec],
      show ('\n' :: [] : List Char) = '\n' :: [] from rfl]
    rw [show (['\n'] : List Char) = '\n' :: [] from rfl,
      pySplitlines_join_nl (noteBlock n) [] (noteBlock_boundary n hn)]
    rw [show pySplitlines [] = [] from rfl, List.append_nil]
    by_cases hbe : n.body.isEmpty
    · rw [show noteBlock n = '#' :: ' ' :: n.title from by
          simp [noteBlock, hbe],
        splitNL_no_nl _ (headLine_no_nl n hn)]
      simp [lineList, hbe]
    · rw [show noteBlock n = ('#' :: ' ' :: n.title) ++ '\n' :: n.body from by
          simp [noteBlock, hbe],
        splitNL_append _ _ (headLine_no_nl n hn)]
      simp [lineList, hbe]
  | cons m rest ih =>
    intro n h
    have hn := h n (by simp)
    have hmrest : ∀ x ∈ m :: rest, CleanNote x :=
      fun x hx => h x (List.mem_cons_of_mem n hx)
    rw [show savedRec (n :: m :: rest)
          = noteBlock n ++ '\n' :: '\n' :: savedRec (m :: rest) from by
        simp [savedRec]]
    rw [show (noteBlock n ++ '\n' :: '\n' :: savedRec (m :: rest)) ++ ['\n']
          = noteBlock n ++ '\n' :: ('\n' :: (savedRec (m :: rest) ++ ['\n']))
        from by simp]
    rw [pySplitlines_join_nl _ _ (noteBlock_boundary n hn),
      pySplitlines_cons_nl, ih m hmrest]
    by_cases hbe : n.body.isEmpty
    · rw [show noteBlock n = '#' :: ' ' :: n.title from by
          simp [noteBlock, hbe],
        splitNL_no_nl _ (headLine_no_nl n hn)]
      simp [lineList, hbe]
    · rw [show noteBlock n = ('#' :: ' ' :: n.title) ++ '\n' :: n.body from by
          simp [noteBlock, hbe],
        splitNL_append _ _ (headLine_no_nl n hn)]
      simp [lineList, hbe]

/-! ### Parsing the saved lines back -/

theorem h1Match_nil : h1Match [] = none := rfl

theorem h1Match_heading (t : List Char) (hd : t.dropWhile isPySpace = t) :
    h1Match ('#' :: ' ' :: t) = some t := by
  have hsp : isPySpace ' ' = true := rfl
  simp [h1Match, List.takeWhile_cons, List.dropWhile_cons, hsp, hd]

theorem pyStrip_clean (t : List Char) (h1 : t.dropWhile isPySpace = t)
    (h2 : rstrip t = t) : pyStrip t = t := by
  unfold pyStrip
  rw [h1, h2]

theorem loadLoop_skip (bls : List (List Char))
    (h : ∀ l ∈ bls, h1Match l = none) :
    ∀ (rest : List (List Char)) (t : List Char) (cls : List (List Char)),
      loadLoop (bls ++ rest) (some t) cls
        = loadLoop rest (some t) (cls ++ bls) := by
  induction bls with
  | nil =>
    intro rest t cls
    simp
  | cons b bls ih =>
    intro rest t cls
    have hb : h1Match b = none := h b (by simp)
    have h' : ∀ l ∈ bls, h1Match l = none :=
      fun l hl => h l (List.mem_cons_of_mem b hl)
    rw [List.cons_append,
      show loadLoop (b :: (bls ++ rest)) (some t) cls
        = loadLoop (bls ++ rest) (some t) (cls ++ [b]) from by
          simp [loadLoop, hb],
      ih h' rest t (cls ++ [b])]
    simp

theorem loadLoop_main (ns : List Note) :
    ∀ (n : Note), CleanNote n → (∀ x ∈ ns, CleanNote x) →
      loadLoop ((if n.body.isEmpty then [] else splitNL n.body) ++
          (if ns.isEmpty then [] else [] :: lineList ns)) (some n.title) []
        = n :: ns := by
  induction ns with
  | nil =>
    intro n hn _
    have hb1 : rstrip n.body = n.body := hn.2.2.2.2.1
    have hb3 : ∀ l ∈ splitNL n.body, h1Match l = none := hn.2.2.2.2.2.2
    simp only [List.isEmpty_nil, if_true, reduceIte, List.append_nil]
    by_cases hbe : n.body.isEmpty
    · have hbnil : n.body = [] := by simpa [List.isEmpty_iff] using hbe
      simp only [hbe, if_true, reduceIte]
      show [(⟨n.title, rstrip (joinNL [])⟩ : Note)] = [n]
      rw [show rstrip (joinNL []) = [] from rfl, ← hbnil]
    · simp only [hbe, Bool.false_eq_true, if_false, reduceIte]
      rw [← List.append_nil (splitNL n.body),
        loadLoop_skip (splitNL n.body) hb3 [] n.title []]
      show [(⟨n.title, rstrip (joinNL ([] ++ splitNL n.body))⟩ : Note)] = [n]
      rw [List.nil_append, joinNL_splitNL, hb1]
  | cons m rest ih =>
    intro n hn hall
    have hm : CleanNote m := hall m (by simp)
    have hrest : ∀ x ∈ rest, CleanNote x :=
      fun x hx => hall x (List.mem_cons_of_mem m hx)
    have hb1 : rstrip n.body = n.body := hn.2.2.2.2.1
    have hb3 : ∀ l ∈ splitNL n.body, h1Match l = none := hn.2.2.2.2.2.2
    have hbop : ∀ l ∈ (if n.body.isEmpty then [] else splitNL n.body),
        h1Match l = none := by
      by_cases hbe : n.body.isEmpty
      · simp [hbe]
      · simpa [hbe] using hb3
    simp only [List.isEmpty_cons, Bool.false_eq_true, if_false, reduceIte]
    rw [loadLoop_skip _ hbop ([] :: lineList (m :: rest)) n.title [],
      List.nil_append]
    rw [show loadLoop ([] :: lineList (m :: rest)) (some n.title)
          (if n.body.isEmpty then [] else splitNL n.body)
        = loadLoop (lineList (m :: rest)) (some n.title)
          ((if n.body.isEmpty then [] else splitNL n.body) ++ [[]]) from by
        simp [loadLoop, h1Match_nil]]
    rw [show lineList (m :: rest)
          = ('#' :: ' ' :: m.title) ::
              ((if m.body.isEmpty then [] else splitNL m.body) ++
                (if rest.isEmpty then [] else [] :: lineList rest)) from rfl]
    rw [show loadLoop (('#' :: ' ' :: m.title) ::
            ((if m.body.isEmpty then [] else splitNL m.body) ++
              (if rest.isEmpty then [] else [] :: lineList rest)))
          (some n.title)
          ((if n.body.isEmpty then [] else splitNL n.body) ++ [[]])
        = (⟨n.title, rstrip (joinNL
            ((if n.body.isEmpty then [] else splitNL n.body) ++ [[]]))⟩ : Note) ::
          loadLoop ((if m.body.isEmpty then [] else splitNL m.body) ++
              (if rest.isEmpty then [] else [] :: lineList rest))
            (some (pyStrip m.title)) [] from by
        simp [loadLoop, h1Match_heading m.title hm.2.1]]
    rw [pyStrip_clean m.title hm.2.1 hm.2.2.1, ih m hm hrest]
    have hflush : rstrip (joinNL
        ((if n.body.isEmpty then [] else splitNL n.body) ++ [[]])) = n.body := by
      by_cases hbe : n.body.isEmpty
      · have hbnil : n.body = [] := by simpa [List.isEmpty_iff] using hbe
        simp only [hbe, if_true, reduceIte, List.nil_append]
        rw [joinNL_single, rstrip_nil, hbnil]
      · simp only [hbe, Bool.false_eq_true, if_false, reduceIte]
        rw [joinNL_concat_nil _ (splitNL_ne_nil n.body), joinNL_splitNL,
          rstrip_concat_nl, hb1]
    rw [hflush]

/-- C1 (amended): notes whose titles are non-empty, free of surrounding
whitespace and line boundaries, and whose bodies are right-stripped, use
only `'\n'` as a line boundary and contain no line matching the heading
marker pattern, survive the save/load round trip exactly. -/
theorem c1_round_trip (notes : List Note) (h : ∀ n ∈ notes, CleanNote n) :
    loadNotes (saveText notes) = notes := by
  cases notes with
  | nil => rfl
  | cons n rest =>
    have hn : CleanNote n := h n (by simp)
    unfold loadNotes saveText
    rw [savedRec_rstrip (n :: rest) h, pySplitlines_savedRec rest n h]
    rw [show lineList (n :: rest)
          = ('#' :: ' ' :: n.title) ::
              ((if n.body.isEmpty then [] else splitNL n.body) ++
                (if rest.isEmpty then [] else [] :: lineList rest)) from rfl]
    rw [show loadLoop (('#' :: ' ' :: n.title) ::
            ((if n.body.isEmpty then [] else splitNL n.body) ++
              (if rest.isEmpty then [] else [] :: lineList rest))) none []
        = loadLoop ((if n.body.isEmpty then [] else splitNL n.body) ++
              (if rest.isEmpty then [] else [] :: lineList rest))
            (some (pyStrip n.title)) [] from by
        simp [loadLoop, h1Match_heading n.title hn.2.1]]
    rw [pyStrip_clean n.title hn.2.1 hn.2.2.1]
    exact loadLoop_main rest n hn (fun x hx => h x (List.mem_cons_of_mem n hx))

/-- Witness for C1: a one-note notebook with title `"a"` and body `"b"`. -/
theorem c1_witness :
    loadNotes (saveText [Note.mk ['a'] ['b']]) = [Note.mk ['a'] ['b']] :=
  c1_round_trip [Note.mk ['a'] ['b']] (by decide)

/-- C1 counterexample: the note `("a", "b ")` satisfies the claim's
hypotheses (non-empty title, no body line matching the heading marker
pattern) but does not survive the round trip: `save` right-strips the
body, so it loads back as `("a", "b")`. -/
theorem c1_counterexample :
    (∀ n ∈ [Note.mk ['a'] ['b', ' ']],
      n.title ≠ [] ∧ ∀ l ∈ splitNL n.body, h1Match l = none) ∧
    loadNotes (saveText [Note.mk ['a'] ['b', ' ']])
      ≠ [Note.mk ['a'] ['b', ' ']] := by
  decide

end Shellpad
